import Mathlib

/-!
Shallow embedding of the color-extraction app (src/app.py).

The palette is a list of hex color strings; pixels are channel lists of
8-bit values.  PIL decoding and the 150x150 resize are external: every
decoded image with positive area enters `extract_colors_kmeans` as the
post-resize grid of 150*150 = 22500 pixels, each pixel a list of `numCh`
channel values (3 for RGB, 4 for RGBA), all in [0,255].  numpy arrays are
modelled as lists; `reshape(-1, 3)` on the flat value buffer is `chunk3`
of the flattened channel list.  Python exceptions are modelled with
`Option` (or an explicit error flag for the in-place callbacks).
`sklearn.cluster.KMeans` is an external library; it is modelled by a
deterministic Lloyd iteration (`kmeansCenters`) that returns exactly
`n_clusters` centers, each a centroid of a subset of the input points,
which is the contract the source relies on.  Floating point arithmetic
(numpy std, colorsys, luma weights) is modelled exactly over `ℚ`.
-/

set_option maxHeartbeats 1000000

/-- The sixteen lowercase hexadecimal digit characters. -/
def hexChars : List Char :=
  ['0', '1', '2', '3', '4', '5', '6', '7'] ++ ['8', '9', 'a', 'b', 'c', 'd', 'e', 'f']

/-- Recognizer for a lowercase hex digit. -/
def isLowerHexDigit (c : Char) : Bool := hexChars.contains c

/-- The lowercase hex digit produced by Python's `"{:02x}"` formatting for a
value `n < 16` ('0'..'9' then 'a'..'f'). -/
def hexDigit (n : ℕ) : Char := if n < 10 then Char.ofNat (48 + n) else Char.ofNat (87 + n)

/-- Value of one hex digit as accepted by Python's `int(_, 16)`
(digits, lowercase and uppercase letters). -/
def hexDigitVal (c : Char) : Option ℕ :=
  if '0' ≤ c ∧ c ≤ '9' then some (c.toNat - 48)
  else if 'a' ≤ c ∧ c ≤ 'f' then some (c.toNat - 87)
  else if 'A' ≤ c ∧ c ≤ 'F' then some (c.toNat - 55)
  else none

/-- Accumulating evaluation of a hex digit string, `none` on a bad digit. -/
def hexNatGo (acc : ℕ) : List Char → Option ℕ
  | [] => some acc
  | c :: rest =>
    match hexDigitVal c with
    | some v => hexNatGo (16 * acc + v) rest
    | none => none

/-- Python `int(s, 16)` on a digit-only slice: fails on the empty slice and on
any invalid digit.  (Sign characters and whitespace, which Python would also
accept, never occur in this program's inputs.) -/
def hexNat (cs : List Char) : Option ℕ :=
  match cs with
  | [] => none
  | _ :: _ => hexNatGo 0 cs

/-- app.py `hex_to_rgb`: strip all leading `#` (Python `lstrip('#')`), then
parse the three 2-character slices `h[0:2]`, `h[2:4]`, `h[4:6]`.
A raised `ValueError` is `none`. -/
def hex_to_rgb (s : String) : Option (ℕ × ℕ × ℕ) :=
  let h := s.data.dropWhile (fun c => c == '#')
  match hexNat (h.take 2), hexNat ((h.drop 2).take 2), hexNat ((h.drop 4).take 2) with
  | some r, some g, some b => some (r, g, b)
  | _, _, _ => none

/-- Python `"{:02x}".format n` for a byte value (the only values this program
formats are in [0,255], where the result is exactly two lowercase digits). -/
def byteToHex (n : ℕ) : String := String.mk [hexDigit (n / 16), hexDigit (n % 16)]

/-- app.py `rgb_to_hex`: `'#{:02x}{:02x}{:02x}'.format(*rgb)`. -/
def rgb_to_hex (t : ℕ × ℕ × ℕ) : String :=
  "#" ++ byteToHex t.1 ++ byteToHex t.2.1 ++ byteToHex t.2.2

/-- A canonical color string as this app produces and displays them:
`#` followed by exactly six lowercase hex digits. -/
def isCanonicalHex (s : String) : Bool :=
  s.data.take 1 == ['#'] && s.data.length == 7 && (s.data.drop 1).all isLowerHexDigit

/-- numpy `reshape(-1, 3)` of a flat value buffer: consecutive triples.
(numpy would reject a buffer whose length is not divisible by 3; every
buffer reshaped by the source has length divisible by 3.) -/
def chunk3 : List ℕ → List (ℕ × ℕ × ℕ)
  | a :: b :: c :: rest => (a, b, c) :: chunk3 rest
  | _ => []

/-- The RGB triple of a 3-channel pixel row. -/
def listToTriple (p : List ℕ) : ℕ × ℕ × ℕ := (p.getD 0 0, p.getD 1 0, p.getD 2 0)

/-- app.py lines 29-31: `if len(shape) == 3 and shape[2] > 3: ar = ar[:, :, :3]`,
dropping the alpha channel of each pixel. -/
def stripAlpha (numCh : ℕ) (pixels : List (List ℕ)) : List (List ℕ) :=
  if 3 < numCh then pixels.map (fun p => p.take 3) else pixels

/-- `ar.reshape(-1, 3)`: flatten the pixel rows into the value buffer and
regroup into triples. -/
def reshape3 (rows : List (List ℕ)) : List (ℕ × ℕ × ℕ) := chunk3 rows.flatten

/-- The working pixel set of `extract_colors_kmeans`: alpha stripped, then
reshaped to RGB triples (app.py lines 29-33).  There is no sampling step. -/
def working_set (numCh : ℕ) (pixels : List (List ℕ)) : List (ℕ × ℕ × ℕ) :=
  reshape3 (stripAlpha numCh pixels)

/-- Population variance of the three channel values of one pixel, exactly the
square of `np.std(ar, axis=1)` for that row. -/
def pixelVariance (t : ℕ × ℕ × ℕ) : ℚ :=
  let r : ℚ := t.1
  let g : ℚ := t.2.1
  let b : ℚ := t.2.2
  let m := (r + g + b) / 3
  ((r - m) ^ 2 + (g - m) ^ 2 + (b - m) ^ 2) / 3

/-- app.py line 41 filter condition `std_dev > 10`, stated exactly over `ℚ` as
`variance > 100` (for nonnegative reals, `std > 10 ↔ std^2 > 100`). -/
def keepPixel (t : ℕ × ℕ × ℕ) : Bool := decide (100 < pixelVariance t)

/-- app.py line 41: `ar = ar[std_dev > 10]`. -/
def filterDull (ws : List (ℕ × ℕ × ℕ)) : List (ℕ × ℕ × ℕ) := ws.filter keepPixel

/-- The pixel set handed to clustering (app.py lines 36-43): when
`ignore_dull`, filter the working set, and if fewer than `n_colors` pixels
survive, fall back to `np.asarray(img_small).reshape(-1, 3)` — note the
fallback reshapes the raw buffer with the alpha channel still present. -/
def clusterInput (numCh : ℕ) (pixels : List (List ℕ)) (n_colors : ℕ)
    (ignore_dull : Bool) : List (ℕ × ℕ × ℕ) :=
  if ignore_dull then
    let ar := filterDull (working_set numCh pixels)
    if ar.length < n_colors then reshape3 pixels else ar
  else working_set numCh pixels

/-- Channel bound of a pixel triple: every channel is at most 255. -/
def byteRange (t : ℕ × ℕ × ℕ) : Prop := t.1 ≤ 255 ∧ t.2.1 ≤ 255 ∧ t.2.2 ≤ 255

/-- Rational RGB points (sklearn works in floating point). -/
abbrev Q3 := ℚ × ℚ × ℚ

/-- A rational RGB point with every component in [0, 255]. -/
def inRange255 (c : Q3) : Prop :=
  0 ≤ c.1 ∧ c.1 ≤ 255 ∧ 0 ≤ c.2.1 ∧ c.2.1 ≤ 255 ∧ 0 ≤ c.2.2 ∧ c.2.2 ≤ 255

/-- Embed an 8-bit pixel triple into `Q3`. -/
def toQ3 (p : ℕ × ℕ × ℕ) : Q3 := ((p.1 : ℚ), (p.2.1 : ℚ), (p.2.2 : ℚ))

/-- Squared Euclidean distance in RGB space. -/
def sqDist (x y : Q3) : ℚ :=
  (x.1 - y.1) ^ 2 + (x.2.1 - y.2.1) ^ 2 + (x.2.2 - y.2.2) ^ 2

/-- Componentwise sum. -/
def addQ3 (x y : Q3) : Q3 := (x.1 + y.1, x.2.1 + y.2.1, x.2.2 + y.2.2)

/-- Mean of a list of points (componentwise). -/
def centroid (ps : List Q3) : Q3 :=
  let s := ps.foldr addQ3 (0, 0, 0)
  (s.1 / (ps.length : ℚ), s.2.1 / (ps.length : ℚ), s.2.2 / (ps.length : ℚ))

/-- Index of the nearest center to a point. -/
def nearestIdx (cs : List Q3) (p : Q3) : ℕ :=
  (List.range cs.length).foldl
    (fun best i =>
      if sqDist p (cs.getD i (0, 0, 0)) < sqDist p (cs.getD best (0, 0, 0)) then i else best) 0

/-- One Lloyd iteration: each center is replaced by the centroid of the points
assigned to it (kept unchanged if its cluster is empty). -/
def lloydStep (pts : List Q3) (cs : List Q3) : List Q3 :=
  cs.enum.map fun ic =>
    let cluster := pts.filter fun p => nearestIdx cs p == ic.1
    if cluster.isEmpty then ic.2 else centroid cluster

/-- Deterministic model of `KMeans(n_clusters=k, n_init=5, max_iter=200).fit`
(app.py lines 47-49): Lloyd's algorithm from a fixed initialization on the
first `k` points, iterated to the iteration cap.  sklearn randomizes the
initialization and restarts; every property proved below holds for any
initialization among the data points and any iteration count.  sklearn
requires `n_clusters ≥ 1` and `k ≤ len(pts)`; the source only reaches this
call with `len(ar) > n_colors`. -/
def kmeansCenters (k : ℕ) (pts : List (ℕ × ℕ × ℕ)) : List Q3 :=
  let ptsQ := pts.map toQ3
  Nat.iterate (lloydStep ptsQ) 200 (ptsQ.take k)

/-- Python `int(_)` on a nonnegative float: truncation toward zero, which on
the nonnegative values this program converts is the floor. -/
def pyInt (q : ℚ) : ℕ := (⌊q⌋).toNat

/-- app.py lines 45-54 without the final hex formatting: the integer color
triples `tuple(map(int, c))` produced by `extract_colors_kmeans`. -/
def extract_colors_rgb (numCh : ℕ) (pixels : List (List ℕ)) (n_colors : ℕ)
    (ignore_dull : Bool) : List (ℕ × ℕ × ℕ) :=
  let ar := clusterInput numCh pixels n_colors ignore_dull
  let colors : List Q3 :=
    if n_colors < ar.length then kmeansCenters n_colors ar else (ar.take n_colors).map toQ3
  colors.map fun c => (pyInt c.1, pyInt c.2.1, pyInt c.2.2)

/-- app.py `extract_colors_kmeans` (lines 18-55): the returned hex color list.
`pixels` is the downscaled 150x150 grid supplied by PIL, one channel list per
pixel. -/
def extract_colors_kmeans (numCh : ℕ) (pixels : List (List ℕ)) (n_colors : ℕ)
    (ignore_dull : Bool) : List String :=
  (extract_colors_rgb numCh pixels n_colors ignore_dull).map rgb_to_hex

/-- The brightness key of app.py lines 62-64:
`c[0]*0.299 + c[1]*0.587 + c[2]*0.114`, exactly over `ℚ`. -/
def luma (c : ℕ × ℕ × ℕ) : ℚ :=
  (c.1 : ℚ) * (299 / 1000) + (c.2.1 : ℚ) * (587 / 1000) + (c.2.2 : ℚ) * (114 / 1000)

/-- Python `colorsys.rgb_to_hsv` on [0,1] components, translated clause by
clause; `% 1.0` is `Int.fract`. -/
def rgb_to_hsv (r g b : ℚ) : ℚ × ℚ × ℚ :=
  let maxc := max r (max g b)
  let minc := min r (min g b)
  let v := maxc
  if minc = maxc then (0, 0, v)
  else
    let rangec := maxc - minc
    let s := rangec / maxc
    let rc := (maxc - r) / rangec
    let gc := (maxc - g) / rangec
    let bc := (maxc - b) / rangec
    let h := if r = maxc then bc - gc else if g = maxc then 2 + rc - bc else 4 + gc - rc
    (Int.fract (h / 6), s, v)

/-- The hue key of app.py line 66:
`colorsys.rgb_to_hsv(c[0]/255, c[1]/255, c[2]/255)[0]`. -/
def hueKey (c : ℕ × ℕ × ℕ) : ℚ :=
  (rgb_to_hsv ((c.1 : ℚ) / 255) ((c.2.1 : ℚ) / 255) ((c.2.2 : ℚ) / 255)).1

/-- app.py line 59: `[hex_to_rgb(c) for c in hex_colors]`, which raises (here:
`none`) on the first unparsable entry. -/
def parseAll : List String → Option (List (ℕ × ℕ × ℕ))
  | [] => some []
  | c :: rest =>
    match hex_to_rgb c, parseAll rest with
    | some t, some ts => some (t :: ts)
    | _, _ => none

/-- app.py `auto_sort_colors` (lines 57-70).  Python `sorted` is a stable
sort, modelled by `List.mergeSort`; `reverse=True` is the reversed
comparison, which preserves the relative order of equal keys exactly as
Python does.  Any method string other than the three recognized ones returns
the input unchanged. -/
def auto_sort_colors (hex_colors : List String) (method : String) : Option (List String) :=
  match parseAll hex_colors with
  | none => none
  | some rgb_colors =>
    if method = "亮度 (暗 -> 亮)" then
      some ((rgb_colors.mergeSort fun a b => decide (luma a ≤ luma b)).map rgb_to_hex)
    else if method = "亮度 (亮 -> 暗)" then
      some ((rgb_colors.mergeSort fun a b => decide (luma b ≤ luma a)).map rgb_to_hex)
    else if method = "色相 (光谱顺序)" then
      some ((rgb_colors.mergeSort fun a b => decide (hueKey a ≤ hueKey b)).map rgb_to_hex)
    else some hex_colors

/-- One line of app.py line 76: `f"{idx + 1} {r} {g} {b}\n"`. -/
def clr_line (idx : ℕ) (t : ℕ × ℕ × ℕ) : String :=
  toString (idx + 1) ++ " " ++ toString t.1 ++ " " ++ toString t.2.1 ++ " " ++
    toString t.2.2 ++ "\n"

/-- The accumulation loop of `generate_clr_content`, carrying the enumeration
index. -/
def generate_clr_go (idx : ℕ) : List String → Option String
  | [] => some ""
  | c :: rest =>
    match hex_to_rgb c, generate_clr_go (idx + 1) rest with
    | some t, some tail => some (clr_line idx t ++ tail)
    | _, _ => none

/-- app.py `generate_clr_content` (lines 72-77). -/
def generate_clr_content (hex_colors : List String) : Option String :=
  generate_clr_go 0 hex_colors

/-- Modelled from the spec: the ramp text as N newline-terminated lines, each
`"<1-based index> <R> <G> <B>"`, in palette order, no header. -/
def rampText (cols : List (ℕ × ℕ × ℕ)) : String :=
  String.join (cols.enum.map fun ic => clr_line ic.1 ic.2)

/-- The record serialized by the JSON download (app.py lines 247-252). -/
structure PaletteRecord where
  name : String
  category : String
  tags : List String
  colors : List String

/-- app.py lines 247-252: the `json_data` value, a one-element array holding
the palette record.  (The subsequent `json.dumps(json_data, indent=2)` call
raises `NameError`: the module `json` is never imported by app.py.) -/
def json_data (filename : String) (palette : List String) : List PaletteRecord :=
  [{ name := filename, category := "Extracted", tags := ["User Image"], colors := palette }]

/-- app.py `move_left` (lines 95-98).  The second component records whether
Python raised `IndexError` (tuple assignment evaluates the right-hand side
first, so the list is unchanged when it raises).  Callback indices are the
nonnegative `global_idx` values supplied by the page loop. -/
def move_left {α : Type} (lst : List α) (index : ℕ) : List α × Bool :=
  if 0 < index then
    match lst[index - 1]?, lst[index]? with
    | some a, some b => ((lst.set index a).set (index - 1) b, false)
    | _, _ => (lst, true)
  else (lst, false)

/-- app.py `move_right` (lines 100-104): guarded by
`index < len(lst) - 1`, so its two accesses never raise for a
nonnegative index. -/
def move_right {α : Type} (lst : List α) (index : ℕ) : List α × Bool :=
  if index < lst.length - 1 then
    match lst[index]?, lst[index + 1]? with
    | some a, some b => ((lst.set index b).set (index + 1) a, false)
    | _, _ => (lst, true)
  else (lst, false)

/-- The intended effect of a move callback on position `j`: exchange the
adjacent entries `j` and `j+1`, leaving everything else in place. -/
def swapAdjacent {α : Type} (lst : List α) (j : ℕ) : List α :=
  match lst[j]?, lst[j + 1]? with
  | some a, some b => lst.take j ++ b :: a :: lst.drop (j + 2)
  | _, _ => lst

/-! ### List-structure helper lemmas -/

theorem string_eq_of_data {s t : String} (h : s.data = t.data) : s = t := by
  cases s; cases t; exact congrArg String.mk h

theorem chunk3_length : ∀ l : List ℕ, (chunk3 l).length = l.length / 3
  | _ :: _ :: _ :: t => by
    have ih := chunk3_length t
    simp [chunk3, ih]
    omega
  | [] => by simp [chunk3]
  | [_] => by simp [chunk3]
  | [_, _] => by simp [chunk3]

theorem chunk3_mem_bound : ∀ l : List ℕ, (∀ v ∈ l, v ≤ 255) →
    ∀ t ∈ chunk3 l, byteRange t
  | a :: b :: c :: rest, h, t, ht => by
    simp only [chunk3, List.mem_cons] at ht
    rcases ht with rfl | ht
    · exact ⟨h a (by simp), h b (by simp), h c (by simp)⟩
    · exact chunk3_mem_bound rest (fun v hv => h v (by simp [hv])) t ht
  | [], _, t, ht => by simp [chunk3] at ht
  | [_], _, t, ht => by simp [chunk3] at ht
  | [_, _], _, t, ht => by simp [chunk3] at ht

theorem flatten_length_const (numCh : ℕ) :
    ∀ rows : List (List ℕ), (∀ p ∈ rows, p.length = numCh) →
      rows.flatten.length = rows.length * numCh := by
  intro rows h
  induction rows with
  | nil => simp
  | cons p t ih =>
    have hp : p.length = numCh := h p (by simp)
    have ih' := ih (fun q hq => h q (by simp [hq]))
    simp [hp, ih']
    ring

theorem reshape3_length (numCh : ℕ) (rows : List (List ℕ))
    (hch : ∀ p ∈ rows, p.length = numCh) :
    (reshape3 rows).length = rows.length * numCh / 3 := by
  unfold reshape3
  rw [chunk3_length, flatten_length_const numCh rows hch]

theorem reshape3_of_rows3 (rows : List (List ℕ)) (h : ∀ p ∈ rows, p.length = 3) :
    reshape3 rows = rows.map listToTriple := by
  induction rows with
  | nil => simp [reshape3, chunk3]
  | cons p t ih =>
    have hp : p.length = 3 := h p (by simp)
    have ht : ∀ q ∈ t, q.length = 3 := fun q hq => h q (by simp [hq])
    rcases p with _ | ⟨a, p⟩; · simp at hp
    rcases p with _ | ⟨b, p⟩; · simp at hp
    rcases p with _ | ⟨c, p⟩; · simp at hp
    have hnil : p = [] := by simpa using hp
    subst hnil
    simp only [reshape3, List.flatten_cons, List.map_cons] at *
    simp [chunk3, listToTriple, ih ht]

theorem reshape3_bounded (rows : List (List ℕ)) (hb : ∀ p ∈ rows, ∀ v ∈ p, v ≤ 255) :
    ∀ t ∈ reshape3 rows, byteRange t := by
  unfold reshape3
  refine chunk3_mem_bound _ ?_
  intro v hv
  rw [List.mem_flatten] at hv
  obtain ⟨p, hp, hvp⟩ := hv
  exact hb p hp v hvp

theorem stripAlpha_rows3 (numCh : ℕ) (pixels : List (List ℕ))
    (hch : ∀ p ∈ pixels, p.length = numCh) (h34 : numCh = 3 ∨ numCh = 4) :
    ∀ p ∈ stripAlpha numCh pixels, p.length = 3 := by
  rcases h34 with rfl | rfl
  · simpa [stripAlpha] using hch
  · intro p hp
    simp only [stripAlpha, if_pos (by omega : 3 < 4), List.mem_map] at hp
    obtain ⟨q, hq, rfl⟩ := hp
    simp [List.length_take, hch q hq]

theorem stripAlpha_length (numCh : ℕ) (pixels : List (List ℕ)) :
    (stripAlpha numCh pixels).length = pixels.length := by
  unfold stripAlpha
  split <;> simp

theorem stripAlpha_values (numCh : ℕ) (pixels : List (List ℕ))
    (hb : ∀ p ∈ pixels, ∀ v ∈ p, v ≤ 255) :
    ∀ p ∈ stripAlpha numCh pixels, ∀ v ∈ p, v ≤ 255 := by
  unfold stripAlpha
  split
  · intro p hp v hv
    rw [List.mem_map] at hp
    obtain ⟨q, hq, rfl⟩ := hp
    exact hb q hq v (List.mem_of_mem_take hv)
  · exact hb

theorem working_set_length (numCh : ℕ) (pixels : List (List ℕ))
    (hch : ∀ p ∈ pixels, p.length = numCh) (h34 : numCh = 3 ∨ numCh = 4) :
    (working_set numCh pixels).length = pixels.length := by
  unfold working_set
  rw [reshape3_length 3 _ (stripAlpha_rows3 numCh pixels hch h34), stripAlpha_length]
  omega

theorem working_set_three (pixels : List (List ℕ)) (hch : ∀ p ∈ pixels, p.length = 3) :
    working_set 3 pixels = pixels.map listToTriple := by
  unfold working_set stripAlpha
  rw [if_neg (by omega : ¬ 3 < 3)]
  exact reshape3_of_rows3 pixels hch

theorem working_set_bounded (numCh : ℕ) (pixels : List (List ℕ))
    (hb : ∀ p ∈ pixels, ∀ v ∈ p, v ≤ 255) :
    ∀ t ∈ working_set numCh pixels, byteRange t := by
  unfold working_set
  exact reshape3_bounded _ (stripAlpha_values numCh pixels hb)

/-! ### K-means model lemmas: center count and channel bounds -/

theorem snd_mem_of_mem_enum {α : Type} {l : List α} {x : ℕ × α} (h : x ∈ l.enum) : x.2 ∈ l := by
  obtain ⟨i, a⟩ := x
  obtain ⟨-, h2, h3⟩ := List.mem_enumFrom (by simpa [List.enum] using h)
  show a ∈ l
  rw [h3]
  exact List.getElem_mem _

theorem lloydStep_length (pts cs : List Q3) : (lloydStep pts cs).length = cs.length := by
  simp [lloydStep]

theorem kmeansCenters_length (k : ℕ) (pts : List (ℕ × ℕ × ℕ)) :
    (kmeansCenters k pts).length = min k pts.length := by
  unfold kmeansCenters
  have h : ∀ n (cs : List Q3),
      (Nat.iterate (lloydStep (pts.map toQ3)) n cs).length = cs.length := by
    intro n
    induction n with
    | zero => intro cs; rfl
    | succ n ih =>
      intro cs
      rw [Function.iterate_succ_apply, ih, lloydStep_length]
  rw [h, List.length_take, List.length_map]

theorem foldr_addQ3_bounds : ∀ ps : List Q3, (∀ p ∈ ps, inRange255 p) →
    0 ≤ (ps.foldr addQ3 (0, 0, 0)).1 ∧ (ps.foldr addQ3 (0, 0, 0)).1 ≤ 255 * ps.length ∧
    0 ≤ (ps.foldr addQ3 (0, 0, 0)).2.1 ∧ (ps.foldr addQ3 (0, 0, 0)).2.1 ≤ 255 * ps.length ∧
    0 ≤ (ps.foldr addQ3 (0, 0, 0)).2.2 ∧ (ps.foldr addQ3 (0, 0, 0)).2.2 ≤ 255 * ps.length
  | [], _ => by simp
  | p :: t, h => by
    obtain ⟨h1, h2, h3, h4, h5, h6⟩ := h p (by simp)
    obtain ⟨i1, i2, i3, i4, i5, i6⟩ :=
      foldr_addQ3_bounds t (fun q hq => h q (by simp [hq]))
    simp only [List.foldr_cons, addQ3, List.length_cons]
    push_cast
    refine ⟨by linarith, by linarith, by linarith, by linarith, by linarith, by linarith⟩

theorem centroid_inRange (ps : List Q3) (hne : ps ≠ []) (h : ∀ p ∈ ps, inRange255 p) :
    inRange255 (centroid ps) := by
  have hlen : 0 < ps.length := List.length_pos.2 hne
  have hlq : (0 : ℚ) < (ps.length : ℚ) := by exact_mod_cast hlen
  obtain ⟨a1, a2, b1, b2, c1, c2⟩ := foldr_addQ3_bounds ps h
  unfold centroid inRange255
  refine ⟨div_nonneg a1 hlq.le, ?_, div_nonneg b1 hlq.le, ?_, div_nonneg c1 hlq.le, ?_⟩
  · rw [div_le_iff₀ hlq]; linarith
  · rw [div_le_iff₀ hlq]; linarith
  · rw [div_le_iff₀ hlq]; linarith

theorem lloydStep_inRange (pts cs : List Q3) (hpts : ∀ p ∈ pts, inRange255 p)
    (hcs : ∀ c ∈ cs, inRange255 c) : ∀ c ∈ lloydStep pts cs, inRange255 c := by
  intro c hc
  unfold lloydStep at hc
  rw [List.mem_map] at hc
  obtain ⟨ic, hic, rfl⟩ := hc
  have hmem : ic.2 ∈ cs := snd_mem_of_mem_enum hic
  dsimp only
  split
  · exact hcs _ hmem
  · next hemp =>
    apply centroid_inRange
    · intro heq
      rw [heq] at hemp
      simp at hemp
    · intro p hp
      exact hpts p (List.mem_filter.1 hp).1

theorem kmeansCenters_inRange (k : ℕ) (pts : List (ℕ × ℕ × ℕ))
    (hb : ∀ t ∈ pts, byteRange t) : ∀ c ∈ kmeansCenters k pts, inRange255 c := by
  unfold kmeansCenters
  have hq : ∀ p ∈ pts.map toQ3, inRange255 p := by
    intro p hp
    rw [List.mem_map] at hp
    obtain ⟨t, ht, rfl⟩ := hp
    obtain ⟨h1, h2, h3⟩ := hb t ht
    unfold toQ3 inRange255
    dsimp only
    refine ⟨Nat.cast_nonneg _, by exact_mod_cast h1, Nat.cast_nonneg _, by exact_mod_cast h2,
      Nat.cast_nonneg _, by exact_mod_cast h3⟩
  have hiter : ∀ n (cs : List Q3), (∀ c ∈ cs, inRange255 c) →
      ∀ c ∈ Nat.iterate (lloydStep (pts.map toQ3)) n cs, inRange255 c := by
    intro n
    induction n with
    | zero => exact fun cs h => h
    | succ n ih =>
      intro cs h
      rw [Function.iterate_succ_apply]
      exact ih _ (lloydStep_inRange _ _ hq h)
  exact hiter 200 _ (fun c hc => hq c (List.mem_of_mem_take hc))

theorem pyInt_le_255 (q : ℚ) (h : q ≤ 255) : pyInt q ≤ 255 := by
  unfold pyInt
  have h2 : ⌊q⌋ ≤ 255 := by
    have := Int.floor_le_floor (α := ℚ) h
    simpa using this
  omega

theorem pyInt_natCast (n : ℕ) : pyInt ((n : ℚ)) = n := by
  simp [pyInt]

/-! ### Extraction pipeline lemmas -/

theorem clusterInput_length_ge (numCh : ℕ) (pixels : List (List ℕ)) (n_colors : ℕ) (d : Bool)
    (hch : ∀ p ∈ pixels, p.length = numCh) (h34 : numCh = 3 ∨ numCh = 4)
    (hlen : pixels.length = 22500) (hn : n_colors ≤ 22500) :
    n_colors ≤ (clusterInput numCh pixels n_colors d).length := by
  have hws := working_set_length numCh pixels hch h34
  unfold clusterInput
  split
  · dsimp only
    split
    · rw [reshape3_length numCh pixels hch, hlen]
      rcases h34 with rfl | rfl <;> omega
    · next hge => omega
  · omega

theorem clusterInput_bounded (numCh : ℕ) (pixels : List (List ℕ)) (n_colors : ℕ) (d : Bool)
    (hb : ∀ p ∈ pixels, ∀ v ∈ p, v ≤ 255) :
    ∀ t ∈ clusterInput numCh pixels n_colors d, byteRange t := by
  unfold clusterInput
  split
  · dsimp only
    split
    · exact reshape3_bounded pixels hb
    · intro t ht
      unfold filterDull at ht
      exact working_set_bounded numCh pixels hb t (List.mem_filter.1 ht).1
  · exact working_set_bounded numCh pixels hb

theorem extract_length_eq (numCh : ℕ) (pixels : List (List ℕ)) (n_colors : ℕ) (d : Bool)
    (hch : ∀ p ∈ pixels, p.length = numCh) (h34 : numCh = 3 ∨ numCh = 4)
    (hlen : pixels.length = 22500) (hn : n_colors ≤ 22500) :
    (extract_colors_rgb numCh pixels n_colors d).length = n_colors := by
  have hge := clusterInput_length_ge numCh pixels n_colors d hch h34 hlen hn
  unfold extract_colors_rgb
  rw [List.length_map]
  split
  · rw [kmeansCenters_length]
    omega
  · rw [List.length_map, List.length_take]
    omega

theorem extract_bounded (numCh : ℕ) (pixels : List (List ℕ)) (n_colors : ℕ) (d : Bool)
    (hb : ∀ p ∈ pixels, ∀ v ∈ p, v ≤ 255) :
    ∀ t ∈ extract_colors_rgb numCh pixels n_colors d, byteRange t := by
  have hcb := clusterInput_bounded numCh pixels n_colors d hb
  unfold extract_colors_rgb
  intro t ht
  rw [List.mem_map] at ht
  obtain ⟨c, hc, rfl⟩ := ht
  have hcr : inRange255 c := by
    revert hc
    split
    · intro hc
      exact kmeansCenters_inRange _ _ hcb c hc
    · intro hc
      rw [List.mem_map] at hc
      obtain ⟨p, hp, rfl⟩ := hc
      obtain ⟨h1, h2, h3⟩ := hcb p (List.mem_of_mem_take hp)
      unfold toQ3 inRange255
      dsimp only
      refine ⟨Nat.cast_nonneg _, by exact_mod_cast h1, Nat.cast_nonneg _, by exact_mod_cast h2,
        Nat.cast_nonneg _, by exact_mod_cast h3⟩
  obtain ⟨-, k1, -, k2, -, k3⟩ := hcr
  exact ⟨pyInt_le_255 _ k1, pyInt_le_255 _ k2, pyInt_le_255 _ k3⟩


/-! ### Hex string round-trip lemmas -/

theorem lower_hex_spec (c : Char) (h : isLowerHexDigit c = true) :
    ∃ v : ℕ, hexDigitVal c = some v ∧ v < 16 ∧ hexDigit v = c ∧ (c == '#') = false := by
  have hc : c ∈ hexChars := by simpa [isLowerHexDigit] using h
  simp only [hexChars] at hc
  rcases List.mem_append.1 hc with hc | hc <;>
    fin_cases hc <;> exact ⟨_, rfl, by decide, by decide, by decide⟩

theorem canonical_round_trip (s : String) (h : isCanonicalHex s = true) :
    ∃ t : ℕ × ℕ × ℕ, hex_to_rgb s = some t ∧ byteRange t ∧ rgb_to_hex t = s := by
  obtain ⟨l⟩ := s
  obtain ⟨⟨h1, h7⟩, hall⟩ :
      (l.take 1 = ['#'] ∧ l.length = 7) ∧ ∀ c ∈ l.tail, isLowerHexDigit c = true := by
    simpa [isCanonicalHex, List.all_eq_true] using h
  rcases l with _ | ⟨c0, l⟩; · simp at h7
  rcases l with _ | ⟨c1, l⟩; · simp at h7
  rcases l with _ | ⟨c2, l⟩; · simp at h7
  rcases l with _ | ⟨c3, l⟩; · simp at h7
  rcases l with _ | ⟨c4, l⟩; · simp at h7
  rcases l with _ | ⟨c5, l⟩; · simp at h7
  rcases l with _ | ⟨c6, l⟩; · simp at h7
  have hnil : l = [] := by simpa using h7
  subst hnil
  have hc0 : c0 = '#' := by simpa using h1
  subst hc0
  obtain ⟨v1, e1, lt1, d1, ne1⟩ := lower_hex_spec c1 (hall c1 (by simp))
  obtain ⟨v2, e2, lt2, d2, ne2⟩ := lower_hex_spec c2 (hall c2 (by simp))
  obtain ⟨v3, e3, lt3, d3, ne3⟩ := lower_hex_spec c3 (hall c3 (by simp))
  obtain ⟨v4, e4, lt4, d4, ne4⟩ := lower_hex_spec c4 (hall c4 (by simp))
  obtain ⟨v5, e5, lt5, d5, ne5⟩ := lower_hex_spec c5 (hall c5 (by simp))
  obtain ⟨v6, e6, lt6, d6, ne6⟩ := lower_hex_spec c6 (hall c6 (by simp))
  refine ⟨(16 * v1 + v2, 16 * v3 + v4, 16 * v5 + v6), ?_, ?_, ?_⟩
  · have hdrop : List.dropWhile (fun c => c == '#') ['#', c1, c2, c3, c4, c5, c6]
        = [c1, c2, c3, c4, c5, c6] := by
      rw [List.dropWhile_cons_of_pos (by decide), List.dropWhile_cons_of_neg (by simp [ne1])]
    have n1 : hexNat ([c1, c2, c3, c4, c5, c6].take 2) = some (16 * v1 + v2) := by
      rw [show [c1, c2, c3, c4, c5, c6].take 2 = [c1, c2] from rfl]
      simp [hexNat, hexNatGo, e1, e2]
    have n2 : hexNat (([c1, c2, c3, c4, c5, c6].drop 2).take 2) = some (16 * v3 + v4) := by
      rw [show ([c1, c2, c3, c4, c5, c6].drop 2).take 2 = [c3, c4] from rfl]
      simp [hexNat, hexNatGo, e3, e4]
    have n3 : hexNat (([c1, c2, c3, c4, c5, c6].drop 4).take 2) = some (16 * v5 + v6) := by
      rw [show ([c1, c2, c3, c4, c5, c6].drop 4).take 2 = [c5, c6] from rfl]
      simp [hexNat, hexNatGo, e5, e6]
    show hex_to_rgb (String.mk ['#', c1, c2, c3, c4, c5, c6]) = _
    simp only [hex_to_rgb]
    rw [hdrop, n1, n2, n3]
  · refine ⟨?_, ?_, ?_⟩ <;> (dsimp only; omega)
  · have q1 : (16 * v1 + v2) / 16 = v1 := by omega
    have r1 : (16 * v1 + v2) % 16 = v2 := by omega
    have q2 : (16 * v3 + v4) / 16 = v3 := by omega
    have r2 : (16 * v3 + v4) % 16 = v4 := by omega
    have q3 : (16 * v5 + v6) / 16 = v5 := by omega
    have r3 : (16 * v5 + v6) % 16 = v6 := by omega
    apply string_eq_of_data
    simp only [rgb_to_hex, byteToHex, String.data_append, q1, r1, q2, r2, q3, r3,
      d1, d2, d3, d4, d5, d6]
    rfl

theorem parseAll_canonical : ∀ l : List String, (∀ s ∈ l, isCanonicalHex s = true) →
    ∃ ts, parseAll l = some ts ∧ ts.map rgb_to_hex = l ∧ ∀ t ∈ ts, byteRange t
  | [], _ => ⟨[], rfl, rfl, by simp⟩
  | c :: rest, h => by
    obtain ⟨t, ht, hb, hr⟩ := canonical_round_trip c (h c (by simp))
    obtain ⟨ts, hts, hmap, hbs⟩ := parseAll_canonical rest (fun s hs => h s (by simp [hs]))
    refine ⟨t :: ts, ?_, ?_, ?_⟩
    · simp [parseAll, ht, hts]
    · simp [hmap, hr]
    · intro u hu
      rcases List.mem_cons.1 hu with rfl | hu
      · exact hb
      · exact hbs u hu

/-! ### String join lemmas for the ramp serializer -/

theorem string_foldl_append (l : List String) :
    ∀ acc : String, l.foldl (fun r s => r ++ s) acc = acc ++ l.foldl (fun r s => r ++ s) "" := by
  induction l with
  | nil =>
    intro acc
    apply string_eq_of_data
    simp [String.data_append]
  | cons s t ih =>
    intro acc
    simp only [List.foldl_cons]
    rw [ih (acc ++ s), ih ("" ++ s)]
    apply string_eq_of_data
    simp [String.data_append]

theorem string_join_cons (s : String) (l : List String) :
    String.join (s :: l) = s ++ String.join l := by
  unfold String.join
  simp only [List.foldl_cons]
  rw [string_foldl_append l ("" ++ s)]
  apply string_eq_of_data
  simp [String.data_append]

theorem generate_clr_go_spec : ∀ (cs : List String) (idx : ℕ) (ts : List (ℕ × ℕ × ℕ)),
    parseAll cs = some ts →
    generate_clr_go idx cs =
      some (String.join ((ts.enumFrom idx).map fun ic => clr_line ic.1 ic.2))
  | [], idx, ts, h => by
    simp only [parseAll, Option.some.injEq] at h
    subst h
    rfl
  | c :: rest, idx, ts, h => by
    cases ht : hex_to_rgb c with
    | none => simp [parseAll, ht] at h
    | some t =>
      cases hr : parseAll rest with
      | none => simp [parseAll, ht, hr] at h
      | some ts' =>
        have hts : ts = t :: ts' := by
          simp only [parseAll, ht, hr, Option.some.injEq] at h
          exact h.symm
        subst hts
        have ih := generate_clr_go_spec rest (idx + 1) ts' hr
        simp only [generate_clr_go, ht, ih, List.enumFrom, List.map_cons]
        rw [string_join_cons]

/-! ### Adjacent-swap lemmas for the move callbacks -/

theorem set_set_swap_left {α : Type} : ∀ (lst : List α) (j : ℕ) (a b : α),
    lst[j]? = some a → lst[j + 1]? = some b →
    (lst.set (j + 1) a).set j b = lst.take j ++ b :: a :: lst.drop (j + 2)
  | [], _, _, _, ha, _ => by simp at ha
  | x :: t, 0, a, b, ha, hb => by
    rcases t with _ | ⟨y, t⟩
    · simp at hb
    · simp only [List.getElem?_cons_zero, Option.some.injEq] at ha hb
      simp only [List.getElem?_cons_succ, List.getElem?_cons_zero, Option.some.injEq] at hb
      subst ha; subst hb
      rfl
  | x :: t, j + 1, a, b, ha, hb => by
    simp only [List.getElem?_cons_succ] at ha hb
    have ih := set_set_swap_left t j a b ha hb
    show x :: ((t.set (j + 1) a).set j b) = x :: (t.take j ++ b :: a :: t.drop (j + 2))
    rw [ih]

theorem set_set_swap_right {α : Type} : ∀ (lst : List α) (j : ℕ) (a b : α),
    lst[j]? = some a → lst[j + 1]? = some b →
    (lst.set j b).set (j + 1) a = lst.take j ++ b :: a :: lst.drop (j + 2)
  | [], _, _, _, ha, _ => by simp at ha
  | x :: t, 0, a, b, ha, hb => by
    rcases t with _ | ⟨y, t⟩
    · simp at hb
    · simp only [List.getElem?_cons_zero, Option.some.injEq] at ha
      simp only [List.getElem?_cons_succ, List.getElem?_cons_zero, Option.some.injEq] at hb
      subst ha; subst hb
      rfl
  | x :: t, j + 1, a, b, ha, hb => by
    simp only [List.getElem?_cons_succ] at ha hb
    have ih := set_set_swap_right t j a b ha hb
    show x :: ((t.set j b).set (j + 1) a) = x :: (t.take j ++ b :: a :: t.drop (j + 2))
    rw [ih]

theorem splice_decomp {α : Type} : ∀ (lst : List α) (j : ℕ) (a b : α),
    lst[j]? = some a → lst[j + 1]? = some b →
    lst = lst.take j ++ a :: b :: lst.drop (j + 2)
  | [], _, _, _, ha, _ => by simp at ha
  | x :: t, 0, a, b, ha, hb => by
    rcases t with _ | ⟨y, t⟩
    · simp at hb
    · simp only [List.getElem?_cons_zero, Option.some.injEq] at ha
      simp only [List.getElem?_cons_succ, List.getElem?_cons_zero, Option.some.injEq] at hb
      subst ha; subst hb
      rfl
  | x :: t, j + 1, a, b, ha, hb => by
    simp only [List.getElem?_cons_succ] at ha hb
    have ih := splice_decomp t j a b ha hb
    show x :: t = x :: (t.take j ++ a :: b :: t.drop (j + 2))
    rw [← ih]

theorem splice_perm {α : Type} (lst : List α) (j : ℕ) (a b : α)
    (ha : lst[j]? = some a) (hb : lst[j + 1]? = some b) :
    List.Perm (lst.take j ++ b :: a :: lst.drop (j + 2)) lst := by
  conv_rhs => rw [splice_decomp lst j a b ha hb]
  exact List.Perm.append_left _ (List.Perm.swap a b _)

theorem swapAdjacent_perm {α : Type} (lst : List α) (j : ℕ) :
    List.Perm (swapAdjacent lst j) lst := by
  unfold swapAdjacent
  cases ha : lst[j]? with
  | none => exact List.Perm.refl _
  | some a =>
    cases hb : lst[j + 1]? with
    | none => exact List.Perm.refl _
    | some b => exact splice_perm lst j a b ha hb

theorem move_left_state {α : Type} (lst : List α) (index : ℕ) :
    (move_left lst index).1 =
      if 0 < index ∧ index < lst.length then swapAdjacent lst (index - 1) else lst := by
  rcases index with _ | j
  · rw [if_neg (by omega)]
    rfl
  · unfold move_left
    rw [if_pos (by omega)]
    by_cases hl : j + 1 < lst.length
    · rw [if_pos ⟨by omega, hl⟩]
      obtain ⟨a, ha⟩ : ∃ a, lst[j]? = some a := ⟨_, List.getElem?_eq_getElem (by omega)⟩
      obtain ⟨b, hb⟩ : ∃ b, lst[j + 1]? = some b := ⟨_, List.getElem?_eq_getElem hl⟩
      simp only [Nat.add_sub_cancel]
      rw [ha, hb]
      dsimp only
      rw [set_set_swap_left lst j a b ha hb]
      unfold swapAdjacent
      rw [ha, hb]
    · rw [if_neg (by omega)]
      simp only [Nat.add_sub_cancel]
      have hb : lst[j + 1]? = none := by
        rw [List.getElem?_eq_none]
        omega
      rw [hb]
      cases ha : lst[j]? <;> rfl

theorem move_right_state {α : Type} (lst : List α) (index : ℕ) :
    (move_right lst index).1 =
      if index < lst.length - 1 then swapAdjacent lst index else lst := by
  unfold move_right
  by_cases hl : index < lst.length - 1
  · rw [if_pos hl, if_pos hl]
    obtain ⟨a, ha⟩ : ∃ a, lst[index]? = some a := ⟨_, List.getElem?_eq_getElem (by omega)⟩
    obtain ⟨b, hb⟩ : ∃ b, lst[index + 1]? = some b := ⟨_, List.getElem?_eq_getElem (by omega)⟩
    rw [ha, hb]
    dsimp only
    rw [set_set_swap_right lst index a b ha hb]
    unfold swapAdjacent
    rw [ha, hb]
  · rw [if_neg hl, if_neg hl]

/-! ### Remaining helpers -/

theorem parseAll_length : ∀ (l : List String) (ts : List (ℕ × ℕ × ℕ)),
    parseAll l = some ts → ts.length = l.length
  | [], ts, h => by
    simp only [parseAll, Option.some.injEq] at h
    rw [← h]
    rfl
  | c :: rest, ts, h => by
    cases ht : hex_to_rgb c with
    | none => simp [parseAll, ht] at h
    | some t =>
      cases hr : parseAll rest with
      | none => simp [parseAll, ht, hr] at h
      | some ts' =>
        have ih := parseAll_length rest ts' hr
        simp only [parseAll, ht, hr, Option.some.injEq] at h
        rw [← h]
        simp [ih]

theorem chunk3_cons (a b c : ℕ) (rest : List ℕ) :
    chunk3 (a :: b :: c :: rest) = (a, b, c) :: chunk3 rest := rfl

theorem fallback_rgba_demo_aux (n : ℕ) :
    (255, 100, 100) ∈ chunk3 (List.replicate (n + 1 + 1) [100, 100, 100, 255]).flatten := by
  rw [List.replicate_succ, List.replicate_succ, List.flatten_cons, List.flatten_cons]
  simp only [List.cons_append, List.nil_append]
  rw [chunk3_cons, chunk3_cons]
  exact List.mem_cons_of_mem _ (List.mem_cons_self _ _)

theorem fallback_rgba_demo :
    (255, 100, 100) ∈ reshape3 (List.replicate 22500 [100, 100, 100, 255]) := by
  rw [reshape3, show (22500 : ℕ) = 22498 + 1 + 1 by norm_num]
  exact fallback_rgba_demo_aux 22498

theorem pixelVariance_gray (a : ℕ) : pixelVariance (a, a, a) = 0 := by
  unfold pixelVariance
  ring

theorem gray_filter_empty (n : ℕ) (t : ℕ × ℕ × ℕ)
    (hg : t.1 = t.2.1 ∧ t.2.1 = t.2.2) :
    filterDull (List.replicate n t) = [] := by
  rw [filterDull, List.filter_eq_nil_iff]
  intro a ha
  rw [List.eq_of_mem_replicate ha]
  obtain ⟨t1, t2, t3⟩ := t
  obtain ⟨h1, h2⟩ := hg
  dsimp only at h1 h2
  subst h1; subst h2
  simp only [keepPixel, pixelVariance_gray, decide_eq_true_eq]
  norm_num

/-! ### Claim theorems -/

/-- Claim C5 (amended): with the filter enabled, a working-set pixel is kept
exactly when the population standard deviation of its three channels exceeds
10 (`np.std(ar, axis=1) > 10`), i.e. discarded exactly when the deviation is
at most 10; the filter performs no hue-saturation-value conversion and the
function takes no `min_sat`/`min_val` thresholds, only the boolean
`ignore_dull`. -/
theorem filter_discards_low_variance (ws : List (ℕ × ℕ × ℕ)) (t : ℕ × ℕ × ℕ)
    (ht : t ∈ ws) :
    t ∈ filterDull ws ↔ 10 < Real.sqrt ((pixelVariance t : ℝ)) := by
  have h1 : (10 : ℝ) < Real.sqrt ((pixelVariance t : ℝ)) ↔
      (100 : ℝ) < ((pixelVariance t : ℝ)) := by
    rw [show (100 : ℝ) = 10 ^ 2 by norm_num]
    exact Real.lt_sqrt (by norm_num)
  rw [h1]
  unfold filterDull
  rw [List.mem_filter]
  simp only [keepPixel, decide_eq_true_eq, ht, true_and]
  exact_mod_cast Iff.rfl

theorem filter_discards_low_variance_witness :
    ((255, 255, 231) ∈ filterDull [(255, 255, 231)]) ↔
      10 < Real.sqrt ((pixelVariance (255, 255, 231) : ℝ)) :=
  filter_discards_low_variance [(255, 255, 231)] (255, 255, 231) (by decide)

/-- Claim C5 is false as stated: the pixels (255,255,231) and (255,243,231)
have identical HSV saturation (24/255) and identical value (1), yet the
enabled filter keeps the first (variance 704/3 > 100) and discards the second
(variance 96 ≤ 100), so no saturation/value thresholds describe the filter. -/
theorem filter_is_not_hsv_thresholds :
    ¬ ∃ min_sat min_val : ℚ, ∀ t : ℕ × ℕ × ℕ,
        (keepPixel t = false ↔
          ((rgb_to_hsv ((t.1 : ℚ) / 255) ((t.2.1 : ℚ) / 255) ((t.2.2 : ℚ) / 255)).2.1
              < min_sat ∨
           (rgb_to_hsv ((t.1 : ℚ) / 255) ((t.2.1 : ℚ) / 255) ((t.2.2 : ℚ) / 255)).2.2
              < min_val)) := by
  rintro ⟨ms, mv, h⟩
  have h1 := h (255, 255, 231)
  have h2 := h (255, 243, 231)
  dsimp only at h1 h2
  have k1 : keepPixel (255, 255, 231) = true := by
    simp only [keepPixel, pixelVariance, decide_eq_true_eq]
    norm_num
  have k2 : keepPixel (255, 243, 231) = false := by
    simp only [keepPixel, pixelVariance, decide_eq_false_iff_not]
    norm_num
  rw [k1] at h1
  rw [k2] at h2
  have hs : (rgb_to_hsv (((255 : ℕ) : ℚ) / 255) (((255 : ℕ) : ℚ) / 255)
        (((231 : ℕ) : ℚ) / 255)).2.1
      = (rgb_to_hsv (((255 : ℕ) : ℚ) / 255) (((243 : ℕ) : ℚ) / 255)
        (((231 : ℕ) : ℚ) / 255)).2.1 := by
    norm_num [rgb_to_hsv, min_def, max_def]
  have hv : (rgb_to_hsv (((255 : ℕ) : ℚ) / 255) (((255 : ℕ) : ℚ) / 255)
        (((231 : ℕ) : ℚ) / 255)).2.2
      = (rgb_to_hsv (((255 : ℕ) : ℚ) / 255) (((243 : ℕ) : ℚ) / 255)
        (((231 : ℕ) : ℚ) / 255)).2.2 := by
    norm_num [rgb_to_hsv, min_def, max_def]
  rcases h2.mp rfl with hlt | hlt
  · exact absurd (h1.mpr (Or.inl (by rw [hs]; exact hlt))) (by simp)
  · exact absurd (h1.mpr (Or.inr (by rw [hv]; exact hlt))) (by simp)

/-- Claim C6 (amended): no sampling step exists.  The working set used for
both filtering and clustering is the full downscaled pixel list, in order,
whatever its size; with the filter off, clustering consumes exactly this
set. -/
theorem working_set_uses_all_pixels (pixels : List (List ℕ))
    (hch : ∀ p ∈ pixels, p.length = 3) :
    working_set 3 pixels = pixels.map listToTriple ∧
    (working_set 3 pixels).length = pixels.length ∧
    ∀ n_colors : ℕ, clusterInput 3 pixels n_colors false = working_set 3 pixels := by
  refine ⟨working_set_three pixels hch, ?_, fun n_colors => rfl⟩
  rw [working_set_three pixels hch, List.length_map]

theorem working_set_uses_all_pixels_witness :
    working_set 3 [[1, 2, 3], [4, 5, 6]] = [[1, 2, 3], [4, 5, 6]].map listToTriple ∧
    (working_set 3 [[1, 2, 3], [4, 5, 6]]).length
      = ([[1, 2, 3], [4, 5, 6]] : List (List ℕ)).length ∧
    ∀ n_colors : ℕ, clusterInput 3 [[1, 2, 3], [4, 5, 6]] n_colors false
      = working_set 3 [[1, 2, 3], [4, 5, 6]] :=
  working_set_uses_all_pixels [[1, 2, 3], [4, 5, 6]] (by decide)

/-- Claim C6 is false as stated: a full 150x150 image yields 22500 flattened
pixels, which exceeds 5000, yet the working set used for filtering and
clustering still has all 22500 pixels, not a 5000-pixel sample. -/
theorem working_set_not_sampled_counterexample :
    (working_set 3 (List.replicate 22500 [0, 0, 0])).length = 22500 ∧
    (22500 : ℕ) ≠ 5000 := by
  constructor
  · rw [working_set_length 3 (List.replicate 22500 [0, 0, 0])
      (fun p hp => by rw [List.eq_of_mem_replicate hp]; rfl) (Or.inl rfl)]
    exact List.length_replicate 22500 [0, 0, 0]
  · decide

/-- Claim C7 is false as stated: the mode string "reverse-existing-order" is
not recognized by `auto_sort_colors`, which returns the palette unchanged
instead of reversed. -/
theorem reverse_mode_counterexample :
    auto_sort_colors ["#000000", "#ff0000"] "reverse-existing-order"
      = some ["#000000", "#ff0000"] ∧
    (["#000000", "#ff0000"] : List String)
      ≠ (["#000000", "#ff0000"] : List String).reverse :=
  ⟨by decide, by decide⟩

/-- Claim C7 (amended): no reverse mode is implemented.  The mode string
"reverse-existing-order" (like every unrecognized mode) returns the input
order unchanged, so applying it twice also returns the original order —
because each application is the identity, not a reversal. -/
theorem reverse_mode_leaves_order_unchanged (hex_colors : List String)
    (h : ∃ ts, parseAll hex_colors = some ts) :
    auto_sort_colors hex_colors "reverse-existing-order" = some hex_colors ∧
    (auto_sort_colors hex_colors "reverse-existing-order").bind
      (fun out => auto_sort_colors out "reverse-existing-order") = some hex_colors := by
  obtain ⟨ts, hts⟩ := h
  have h1 : auto_sort_colors hex_colors "reverse-existing-order" = some hex_colors := by
    unfold auto_sort_colors
    rw [hts]
    dsimp only
    rw [if_neg (by decide), if_neg (by decide), if_neg (by decide)]
  refine ⟨h1, ?_⟩
  rw [h1]
  exact h1

theorem reverse_mode_leaves_order_unchanged_witness :
    auto_sort_colors ["#123abc"] "reverse-existing-order" = some ["#123abc"] ∧
    (auto_sort_colors ["#123abc"] "reverse-existing-order").bind
      (fun out => auto_sort_colors out "reverse-existing-order") = some ["#123abc"] :=
  reverse_mode_leaves_order_unchanged ["#123abc"] ⟨[(18, 58, 188)], by decide⟩

/-- Claim C8: for a palette whose entries parse, the ramp serializer emits
exactly one newline-terminated line "<1-based index> <R> <G> <B>" per
palette entry, in palette order, with no header. -/
theorem generate_clr_emits_indexed_lines (hex_colors : List String)
    (ts : List (ℕ × ℕ × ℕ)) (hp : parseAll hex_colors = some ts) :
    generate_clr_content hex_colors = some (rampText ts) ∧
    (ts.enum.map fun ic => clr_line ic.1 ic.2).length = hex_colors.length := by
  constructor
  · exact generate_clr_go_spec hex_colors 0 ts hp
  · rw [List.length_map, List.enum_length, parseAll_length hex_colors ts hp]

theorem generate_clr_emits_indexed_lines_witness :
    generate_clr_content ["#000000", "#ff0000"] = some "1 0 0 0\n2 255 0 0\n" := by
  have h := generate_clr_emits_indexed_lines ["#000000", "#ff0000"]
    [(0, 0, 0), (255, 0, 0)] (by decide)
  rw [h.1]
  decide

/-- Claim C9: the value handed to the JSON serializer is a one-record array
whose fields are `name` (the file name), `category` (the fixed constant
"Extracted"), `tags` (an array of strings) and `colors` (the palette strings
in order); for the palette #000000, #ff0000 the colors field is exactly that
list.  The serialization call itself raises `NameError` because app.py uses
`json.dumps` without importing `json`. -/
theorem json_record_fields :
    (∀ filename palette, ∃ rec : PaletteRecord,
        json_data filename palette = [rec] ∧ rec.name = filename ∧
        rec.category = "Extracted" ∧ rec.tags = ["User Image"] ∧ rec.colors = palette) ∧
    (json_data "test" ["#000000", "#ff0000"]).map PaletteRecord.colors
      = [["#000000", "#ff0000"]] :=
  ⟨fun _filename _palette => ⟨_, rfl, rfl, rfl, rfl, rfl⟩, rfl⟩

/-- Claim C10: both move callbacks preserve the length and the multiset of
the palette; an in-range, non-boundary index swaps the two adjacent entries,
and any other index leaves the palette unchanged. -/
theorem move_callbacks_preserve_palette {α : Type} (lst : List α) (index : ℕ) :
    ((move_left lst index).1.length = lst.length ∧
      ((move_left lst index).1 : Multiset α) = (lst : Multiset α)) ∧
    ((move_right lst index).1.length = lst.length ∧
      ((move_right lst index).1 : Multiset α) = (lst : Multiset α)) ∧
    (0 < index → index < lst.length →
      (move_left lst index).1 = swapAdjacent lst (index - 1)) ∧
    (index = 0 ∨ lst.length ≤ index → (move_left lst index).1 = lst) ∧
    (index < lst.length - 1 → (move_right lst index).1 = swapAdjacent lst index) ∧
    (lst.length - 1 ≤ index → (move_right lst index).1 = lst) := by
  have hl := move_left_state lst index
  have hr := move_right_state lst index
  refine ⟨⟨?_, ?_⟩, ⟨?_, ?_⟩, ?_, ?_, ?_, ?_⟩
  · rw [hl]
    split_ifs with h
    · exact (swapAdjacent_perm lst (index - 1)).length_eq
    · rfl
  · rw [hl]
    split_ifs with h
    · exact Multiset.coe_eq_coe.2 (swapAdjacent_perm lst (index - 1))
    · rfl
  · rw [hr]
    split_ifs with h
    · exact (swapAdjacent_perm lst index).length_eq
    · rfl
  · rw [hr]
    split_ifs with h
    · exact Multiset.coe_eq_coe.2 (swapAdjacent_perm lst index)
    · rfl
  · intro h1 h2
    rw [hl, if_pos ⟨h1, h2⟩]
  · intro h0
    rcases h0 with rfl | h0 <;> rw [hl, if_neg (by omega)]
  · intro h1
    rw [hr, if_pos h1]
  · intro h1
    rw [hr, if_neg (by omega)]

theorem move_callbacks_preserve_palette_witness :
    (move_left [10, 20, 30] 1).1 = [20, 10, 30] ∧
    ((move_right [10, 20, 30] 1).1 : Multiset ℕ) = ([10, 20, 30] : Multiset ℕ) := by
  have h := move_callbacks_preserve_palette [10, 20, 30] 1
  refine ⟨?_, h.2.1.2⟩
  rw [h.2.2.1 (by norm_num) (by norm_num)]
  decide

/-- Claim C2: for every palette of canonical hex color strings and every mode
string, `auto_sort_colors` succeeds and returns a palette with exactly the
same multiset of colors.  (In this pure embedding — as with `sorted` and the
list comprehension in the source — the input list is not mutated.) -/
theorem auto_sort_preserves_multiset (hex_colors : List String) (method : String)
    (h : ∀ s ∈ hex_colors, isCanonicalHex s = true) :
    ∃ out, auto_sort_colors hex_colors method = some out ∧
      (out : Multiset String) = (hex_colors : Multiset String) := by
  obtain ⟨ts, hts, hmap, -⟩ := parseAll_canonical hex_colors h
  unfold auto_sort_colors
  rw [hts]
  dsimp only
  split_ifs with h1 h2 h3
  · exact ⟨_, rfl, Multiset.coe_eq_coe.2
      (by rw [← hmap]; exact (List.mergeSort_perm ts _).map rgb_to_hex)⟩
  · exact ⟨_, rfl, Multiset.coe_eq_coe.2
      (by rw [← hmap]; exact (List.mergeSort_perm ts _).map rgb_to_hex)⟩
  · exact ⟨_, rfl, Multiset.coe_eq_coe.2
      (by rw [← hmap]; exact (List.mergeSort_perm ts _).map rgb_to_hex)⟩
  · exact ⟨hex_colors, rfl, rfl⟩

theorem auto_sort_preserves_multiset_witness :
    ∃ out, auto_sort_colors ["#ff0000", "#00ff00"] "亮度 (暗 -> 亮)" = some out ∧
      (out : Multiset String) = ((["#ff0000", "#00ff00"] : List String) : Multiset String) :=
  auto_sort_preserves_multiset ["#ff0000", "#00ff00"] "亮度 (暗 -> 亮)" (by decide)

/-- Claim C1 (amended): for every decoded 3- or 4-channel image with positive
area (so 22500 downscaled pixels) and every n_colors with 2 ≤ n_colors ≤
22500, extraction returns exactly n_colors colors, and every channel of
every returned color is an integer in [0,255].  For n_colors above the
working-set size the code instead returns one color per working pixel,
fewer than requested (see the counterexample). -/
theorem extract_returns_n_colors_in_byte_range (numCh : ℕ) (pixels : List (List ℕ))
    (n_colors : ℕ) (ignore_dull : Bool)
    (hch : ∀ p ∈ pixels, p.length = numCh) (h34 : numCh = 3 ∨ numCh = 4)
    (hlen : pixels.length = 22500) (hbyte : ∀ p ∈ pixels, ∀ v ∈ p, v ≤ 255)
    (_h2 : 2 ≤ n_colors) (hn : n_colors ≤ 22500) :
    (extract_colors_kmeans numCh pixels n_colors ignore_dull).length = n_colors ∧
    ∀ t ∈ extract_colors_rgb numCh pixels n_colors ignore_dull, byteRange t := by
  constructor
  · unfold extract_colors_kmeans
    rw [List.length_map]
    exact extract_length_eq numCh pixels n_colors ignore_dull hch h34 hlen hn
  · exact extract_bounded numCh pixels n_colors ignore_dull hbyte

theorem extract_returns_n_colors_in_byte_range_witness :
    (extract_colors_kmeans 3 (List.replicate 22500 [0, 0, 0]) 2 false).length = 2 ∧
    ∀ t ∈ extract_colors_rgb 3 (List.replicate 22500 [0, 0, 0]) 2 false, byteRange t :=
  extract_returns_n_colors_in_byte_range 3 (List.replicate 22500 [0, 0, 0]) 2 false
    (fun p hp => by rw [List.eq_of_mem_replicate hp]; rfl)
    (Or.inl rfl)
    (List.length_replicate 22500 [0, 0, 0])
    (fun p hp v hv => by
      rw [List.eq_of_mem_replicate hp] at hv
      simp at hv
      omega)
    (by omega) (by omega)

/-- Claim C1 is false as stated for n_colors beyond the working-set size: a
valid 150x150 RGB image provides 22500 working pixels, and a request for
22501 colors returns only 22500 colors. -/
theorem extract_more_than_pixels_counterexample :
    (extract_colors_rgb 3 (List.replicate 22500 [0, 0, 0]) 22501 false).length = 22500 ∧
    (22500 : ℕ) ≠ 22501 := by
  have hws : (working_set 3 (List.replicate 22500 [0, 0, 0])).length = 22500 := by
    rw [working_set_length 3 _ (fun p hp => by rw [List.eq_of_mem_replicate hp]; rfl)
      (Or.inl rfl)]
    exact List.length_replicate 22500 [0, 0, 0]
  have hci : clusterInput 3 (List.replicate 22500 [0, 0, 0]) 22501 false
      = working_set 3 (List.replicate 22500 [0, 0, 0]) := rfl
  constructor
  · unfold extract_colors_rgb
    dsimp only
    rw [hci, if_neg (by rw [hws]; omega)]
    rw [List.length_map, List.length_map, List.length_take, hws]
    omega
  · decide

/-- Claim C3 (amended): if the enabled filter leaves fewer than n_colors
pixels, extraction falls back to `np.asarray(img_small).reshape(-1, 3)` and
still returns a full palette of exactly n_colors colors.  For a 3-channel
image this fallback is precisely the unfiltered working set, but for a
4-channel image it is not: the raw buffer is reshaped with the alpha values
still interleaved (see the counterexample). -/
theorem filter_fallback_full_palette (numCh : ℕ) (pixels : List (List ℕ)) (n_colors : ℕ)
    (hch : ∀ p ∈ pixels, p.length = numCh) (h34 : numCh = 3 ∨ numCh = 4)
    (hlen : pixels.length = 22500) (_h2 : 2 ≤ n_colors) (hn : n_colors ≤ 22500)
    (hfew : (filterDull (working_set numCh pixels)).length < n_colors) :
    clusterInput numCh pixels n_colors true = reshape3 pixels ∧
    (numCh = 3 → clusterInput numCh pixels n_colors true = working_set numCh pixels) ∧
    (extract_colors_rgb numCh pixels n_colors true).length = n_colors := by
  have hci : clusterInput numCh pixels n_colors true = reshape3 pixels := by
    unfold clusterInput
    rw [if_pos rfl]
    dsimp only
    rw [if_pos hfew]
  refine ⟨hci, ?_, extract_length_eq numCh pixels n_colors true hch h34 hlen hn⟩
  intro h3
  subst h3
  rw [hci]
  unfold working_set stripAlpha
  rw [if_neg (by omega : ¬ (3 : ℕ) < 3)]

theorem filter_fallback_full_palette_witness :
    clusterInput 3 (List.replicate 22500 [7, 7, 7]) 5 true
      = reshape3 (List.replicate 22500 [7, 7, 7]) ∧
    ((3 : ℕ) = 3 → clusterInput 3 (List.replicate 22500 [7, 7, 7]) 5 true
      = working_set 3 (List.replicate 22500 [7, 7, 7])) ∧
    (extract_colors_rgb 3 (List.replicate 22500 [7, 7, 7]) 5 true).length = 5 := by
  apply filter_fallback_full_palette 3 (List.replicate 22500 [7, 7, 7]) 5
    (fun p hp => by rw [List.eq_of_mem_replicate hp]; rfl)
    (Or.inl rfl)
    (List.length_replicate 22500 [7, 7, 7])
    (by omega) (by omega)
  rw [working_set_three _ (fun p hp => by rw [List.eq_of_mem_replicate hp]; rfl),
    List.map_replicate]
  rw [gray_filter_empty 22500 (listToTriple [7, 7, 7]) ⟨rfl, rfl⟩]
  decide

/-- Claim C3 is false as stated for 4-channel images: on an all-gray RGBA
image the filter removes every pixel, and the fallback pixel set is not the
unfiltered working set — reshaping the raw buffer mixes alpha values into
the triples, producing e.g. (255,100,100), which the working set does not
contain. -/
theorem fallback_mixes_alpha_counterexample :
    (255, 100, 100) ∈ clusterInput 4 (List.replicate 22500 [100, 100, 100, 255]) 3 true ∧
    (255, 100, 100) ∉ working_set 4 (List.replicate 22500 [100, 100, 100, 255]) := by
  have hws : working_set 4 (List.replicate 22500 [100, 100, 100, 255])
      = List.replicate 22500 (100, 100, 100) := by
    unfold working_set stripAlpha
    rw [if_pos (by omega : (3 : ℕ) < 4), List.map_replicate]
    rw [show ([100, 100, 100, 255] : List ℕ).take 3 = [100, 100, 100] from rfl]
    rw [reshape3_of_rows3 _ (fun p hp => by rw [List.eq_of_mem_replicate hp]; rfl)]
    rw [List.map_replicate]
    rfl
  constructor
  · unfold clusterInput
    rw [if_pos rfl]
    dsimp only
    rw [hws, gray_filter_empty 22500 (100, 100, 100) ⟨rfl, rfl⟩]
    rw [if_pos (by decide)]
    exact fallback_rgba_demo
  · rw [hws]
    intro hmem
    have h := List.eq_of_mem_replicate hmem
    simp at h

/-- Claim C4 (amended): extraction performs no parameter validation — no
InvalidParamsError (or any error class) exists in the code.  Called with
n_colors = 1 on a decoded image it simply succeeds and returns a palette of
exactly one color instead of failing. -/
theorem extract_no_param_validation (numCh : ℕ) (pixels : List (List ℕ)) (d : Bool)
    (hch : ∀ p ∈ pixels, p.length = numCh) (h34 : numCh = 3 ∨ numCh = 4)
    (hlen : pixels.length = 22500) :
    (extract_colors_rgb numCh pixels 1 d).length = 1 ∧
    (extract_colors_kmeans numCh pixels 1 d).length = 1 := by
  have h := extract_length_eq numCh pixels 1 d hch h34 hlen (by omega)
  refine ⟨h, ?_⟩
  unfold extract_colors_kmeans
  rw [List.length_map, h]

theorem extract_no_param_validation_witness :
    (extract_colors_rgb 3 (List.replicate 22500 [5, 5, 5]) 1 false).length = 1 ∧
    (extract_colors_kmeans 3 (List.replicate 22500 [5, 5, 5]) 1 false).length = 1 :=
  extract_no_param_validation 3 (List.replicate 22500 [5, 5, 5]) false
    (fun p hp => by rw [List.eq_of_mem_replicate hp]; rfl)
    (Or.inl rfl)
    (List.length_replicate 22500 [5, 5, 5])

/-- Claim C4 is false as stated: extract with n_colors = 1 does not fail with
any error — on a valid image it returns a palette of exactly one color. -/
theorem extract_single_color_counterexample :
    (extract_colors_rgb 3 (List.replicate 22500 [0, 0, 0]) 1 false).length = 1 :=
  extract_length_eq 3 (List.replicate 22500 [0, 0, 0]) 1 false
    (fun p hp => by rw [List.eq_of_mem_replicate hp]; rfl)
    (Or.inl rfl)
    (List.length_replicate 22500 [0, 0, 0])
    (by omega)
